import Mathlib

/-!
Verification development for the OTBI export organizer (`app.py`,
`utils_bip.py`, `launch.py`).  The Python sources are shallowly embedded:
strings become `String`/`List Char`, filesystem state becomes explicit lists
of paths, zip archives become lists of named entries, and XML documents
become a small tree type matched on local element names (the sources parse
with a namespace-agnostic, recovering parser and select by `local-name()`).
-/

namespace Otbi

/-!
## Character classes

`safe_name` in `utils_bip.py` uses the regexes `[^\w\-.]+` (with `re.UNICODE`)
and `_+`, plus `str.strip()` (whitespace) and `str.strip("._")`.
`pyWord` models `\w` (alphanumerics and underscore); it is restricted to the
alphanumerics that `Char.isAlphanum` recognizes.  All properties proved below
are insensitive to the exact alphabet of word characters, as long as `_`, `-`,
`.` are treated as kept and whitespace is not.
-/

def pyWord (c : Char) : Bool := c.isAlphanum || c = '_'

/-- A character the regex `[^\w\-.]+` does NOT replace. -/
def keepChar (c : Char) : Bool := pyWord c || c = '-' || c = '.'

/-- The character set of Python's `str.strip("._")`. -/
def dotUnd (c : Char) : Bool := c = '.' || c = '_'

theorem keepChar_not_ws {c : Char} (h : keepChar c = true) : c.isWhitespace = false := by
  cases hws : c.isWhitespace
  · rfl
  · exfalso
    have : c = ' ' ∨ c = '\t' ∨ c = '\r' ∨ c = '\n' := by
      simpa [Char.isWhitespace, or_assoc] using hws
    rcases this with h1 | h1 | h1 | h1 <;> subst h1 <;> simp [keepChar, pyWord] at h

/-!
## Both-ends trimming, as in Python `str.strip`
-/

def dropTrail (p : Char → Bool) (l : List Char) : List Char :=
  (l.reverse.dropWhile p).reverse

def stripWhile (p : Char → Bool) (l : List Char) : List Char :=
  dropTrail p (l.dropWhile p)

theorem dropTrail_prefix_self (p : Char → Bool) (l : List Char) : dropTrail p l <+: l := by
  have h := List.dropWhile_suffix (l := l.reverse) p
  have h2 : (l.reverse.dropWhile p).reverse.reverse <:+ l.reverse := by
    rwa [List.reverse_reverse]
  exact (List.reverse_suffix).mp h2

theorem dropWhile_eq_self_of_not {p : Char → Bool} {l : List Char}
    (h : ∀ c ∈ l, p c = false) : l.dropWhile p = l := by
  cases l with
  | nil => rfl
  | cons a t => rw [List.dropWhile_cons]; simp [h a (by simp)]

theorem stripWhile_eq_self_of_not {p : Char → Bool} {l : List Char}
    (h : ∀ c ∈ l, p c = false) : stripWhile p l = l := by
  unfold stripWhile dropTrail
  rw [dropWhile_eq_self_of_not h,
    dropWhile_eq_self_of_not (fun c hc => h c (List.mem_reverse.mp hc)),
    List.reverse_reverse]

theorem mem_stripWhile_sub {p : Char → Bool} {l : List Char} {c : Char}
    (h : c ∈ stripWhile p l) : c ∈ l := by
  unfold stripWhile at h
  have h1 := (dropTrail_prefix_self p (l.dropWhile p)).subset h
  exact (List.dropWhile_suffix p).subset h1

/-- Idempotence of head-trimming on an already head-trimmed list. -/
theorem head_false_of_dropWhile_cons {p : Char → Bool} {l : List Char} {a : Char}
    {t : List Char} (hdw : l.dropWhile p = a :: t) : p a = false := by
  have := List.head_dropWhile_not p l (by rw [hdw]; simp)
  simp only [hdw, List.head_cons] at this
  exact this

theorem dropWhile_dropWhile (p : Char → Bool) (l : List Char) :
    (l.dropWhile p).dropWhile p = l.dropWhile p := by
  rcases hdw : l.dropWhile p with _ | ⟨a, t⟩
  · rfl
  · rw [List.dropWhile_cons, head_false_of_dropWhile_cons hdw]
    simp

theorem dropTrail_dropTrail (p : Char → Bool) (l : List Char) :
    dropTrail p (dropTrail p l) = dropTrail p l := by
  unfold dropTrail
  rw [List.reverse_reverse, dropWhile_dropWhile]

/-- Trimming the head of a tail-trimmed, head-trimmed list does nothing. -/
theorem dropWhile_dropTrail_dropWhile (p : Char → Bool) (l : List Char) :
    (dropTrail p (l.dropWhile p)).dropWhile p = dropTrail p (l.dropWhile p) := by
  rcases hres : dropTrail p (l.dropWhile p) with _ | ⟨a, t⟩
  · rfl
  · have hpre : dropTrail p (l.dropWhile p) <+: l.dropWhile p :=
      dropTrail_prefix_self p (l.dropWhile p)
    rw [hres] at hpre
    have hne : l.dropWhile p ≠ [] := by
      intro hnil
      rw [hnil] at hpre
      exact absurd (List.prefix_nil.mp hpre) (by simp)
    have hhead : (a :: t).head (by simp) = (l.dropWhile p).head hne :=
      hpre.head (by simp)
    have ha : p a = false := by
      have := List.head_dropWhile_not p l hne
      rw [← hhead] at this
      simpa using this
    rw [List.dropWhile_cons, ha]
    simp

theorem stripWhile_stripWhile (p : Char → Bool) (l : List Char) :
    stripWhile p (stripWhile p l) = stripWhile p l := by
  unfold stripWhile
  rw [dropWhile_dropTrail_dropWhile, dropTrail_dropTrail]

/-- The first character of a nonempty stripped list fails the strip predicate. -/
theorem head_stripWhile_false {p : Char → Bool} {l : List Char} {a : Char} {t : List Char}
    (h : stripWhile p l = a :: t) : p a = false := by
  have hpre : stripWhile p l <+: l.dropWhile p := dropTrail_prefix_self p (l.dropWhile p)
  rw [h] at hpre
  have hne : l.dropWhile p ≠ [] := by
    intro hnil
    rw [hnil] at hpre
    exact absurd (List.prefix_nil.mp hpre) (by simp)
  have hhead : (a :: t).head (by simp) = (l.dropWhile p).head hne := hpre.head (by simp)
  have := List.head_dropWhile_not p l hne
  rw [← hhead] at this
  simpa using this

/-!
## The run-replacing regex substitutions of `safe_name`

`replaceRunsAux` models `re.sub(r"[^\w\-.]+", "_", name)`: each maximal run of
non-kept characters becomes a single underscore (the flag records whether the
previous character was part of such a run).  `collapseUndAux` models
`re.sub(r"_+", "_", name)` the same way.
-/

def replaceRunsAux : Bool → List Char → List Char
  | _, [] => []
  | prevBad, c :: rest =>
    if keepChar c then c :: replaceRunsAux false rest
    else
      match prevBad with
      | true => replaceRunsAux true rest
      | false => '_' :: replaceRunsAux true rest

def replaceRuns (l : List Char) : List Char := replaceRunsAux false l

def collapseUndAux : Bool → List Char → List Char
  | _, [] => []
  | prevUnd, c :: rest =>
    if c = '_' then
      match prevUnd with
      | true => collapseUndAux true rest
      | false => '_' :: collapseUndAux true rest
    else c :: collapseUndAux false rest

def collapseUnd (l : List Char) : List Char := collapseUndAux false l

theorem replaceRunsAux_cons_true (c : Char) (rest : List Char) :
    replaceRunsAux true (c :: rest) =
      if keepChar c then c :: replaceRunsAux false rest
      else replaceRunsAux true rest := by
  by_cases hk : keepChar c <;> simp [replaceRunsAux, hk]

theorem replaceRunsAux_cons_false (c : Char) (rest : List Char) :
    replaceRunsAux false (c :: rest) =
      if keepChar c then c :: replaceRunsAux false rest
      else '_' :: replaceRunsAux true rest := by
  by_cases hk : keepChar c <;> simp [replaceRunsAux, hk]

theorem mem_replaceRunsAux {c : Char} :
    ∀ (b : Bool) (l : List Char), c ∈ replaceRunsAux b l → keepChar c = true := by
  intro b l
  induction l generalizing b with
  | nil => intro h; simp [replaceRunsAux] at h
  | cons a t ih =>
    intro h
    by_cases hk : keepChar a
    · cases b with
      | true =>
        rw [replaceRunsAux_cons_true, if_pos hk] at h
        rcases List.mem_cons.mp h with h1 | h1
        · subst h1; exact hk
        · exact ih false h1
      | false =>
        rw [replaceRunsAux_cons_false, if_pos hk] at h
        rcases List.mem_cons.mp h with h1 | h1
        · subst h1; exact hk
        · exact ih false h1
    · cases b with
      | true =>
        rw [replaceRunsAux_cons_true, if_neg hk] at h
        exact ih true h
      | false =>
        rw [replaceRunsAux_cons_false, if_neg hk] at h
        rcases List.mem_cons.mp h with h1 | h1
        · subst h1; decide
        · exact ih true h1

theorem replaceRunsAux_eq_self {l : List Char}
    (h : ∀ c ∈ l, keepChar c = true) : ∀ b, replaceRunsAux b l = l := by
  induction l with
  | nil => intro b; rfl
  | cons a t ih =>
    intro b
    have ht := ih (fun c hc => h c (List.mem_cons_of_mem a hc))
    cases b with
    | true => rw [replaceRunsAux_cons_true, if_pos (h a (by simp)), ht false]
    | false => rw [replaceRunsAux_cons_false, if_pos (h a (by simp)), ht false]

theorem collapseUndAux_cons_true (c : Char) (rest : List Char) :
    collapseUndAux true (c :: rest) =
      if c = '_' then collapseUndAux true rest
      else c :: collapseUndAux false rest := by
  by_cases hc : c = '_' <;> simp [collapseUndAux, hc]

theorem collapseUndAux_cons_false (c : Char) (rest : List Char) :
    collapseUndAux false (c :: rest) =
      if c = '_' then '_' :: collapseUndAux true rest
      else c :: collapseUndAux false rest := by
  by_cases hc : c = '_' <;> simp [collapseUndAux, hc]

theorem mem_collapseUndAux {c : Char} :
    ∀ (b : Bool) (l : List Char), c ∈ collapseUndAux b l → c ∈ l := by
  intro b l
  induction l generalizing b with
  | nil => intro h; simp [collapseUndAux] at h
  | cons a t ih =>
    intro h
    by_cases ha : a = '_'
    · cases b with
      | true =>
        rw [collapseUndAux_cons_true, if_pos ha] at h
        exact List.mem_cons_of_mem a (ih true h)
      | false =>
        rw [collapseUndAux_cons_false, if_pos ha] at h
        rcases List.mem_cons.mp h with h1 | h1
        · subst h1; rw [ha]; simp
        · exact List.mem_cons_of_mem a (ih true h1)
    · cases b with
      | true =>
        rw [collapseUndAux_cons_true, if_neg ha] at h
        rcases List.mem_cons.mp h with h1 | h1
        · subst h1; simp
        · exact List.mem_cons_of_mem a (ih false h1)
      | false =>
        rw [collapseUndAux_cons_false, if_neg ha] at h
        rcases List.mem_cons.mp h with h1 | h1
        · subst h1; simp
        · exact List.mem_cons_of_mem a (ih false h1)

/-- No two adjacent underscores. -/
def noDUnd : List Char → Bool
  | a :: b :: rest => !(a = '_' && b = '_') && noDUnd (b :: rest)
  | _ => true

theorem noDUnd_cons {a : Char} {l : List Char} (h : noDUnd (a :: l) = true) :
    noDUnd l = true := by
  cases l with
  | nil => rfl
  | cons b t =>
    rw [noDUnd] at h
    exact (Bool.and_eq_true_iff.mp h).2

/-- The head of a `collapseUndAux true` result is never an underscore. -/
theorem collapseUndAux_true_head :
    ∀ (l : List Char) {c : Char} {t : List Char},
      collapseUndAux true l = c :: t → c ≠ '_' := by
  intro l
  induction l with
  | nil => intro c t h; simp [collapseUndAux] at h
  | cons a s ih =>
    intro c t h
    by_cases ha : a = '_'
    · rw [collapseUndAux_cons_true, if_pos ha] at h
      exact ih h
    · rw [collapseUndAux_cons_true, if_neg ha] at h
      injection h with h1 _
      subst h1
      exact ha

theorem noDUnd_collapseUndAux : ∀ (b : Bool) (l : List Char),
    noDUnd (collapseUndAux b l) = true := by
  intro b l
  induction l generalizing b with
  | nil => cases b <;> rfl
  | cons a t ih =>
    by_cases ha : a = '_'
    · cases b with
      | true =>
        rw [collapseUndAux_cons_true, if_pos ha]
        exact ih true
      | false =>
        rw [collapseUndAux_cons_false, if_pos ha]
        rcases hres : collapseUndAux true t with _ | ⟨c, s⟩
        · simp [noDUnd]
        · have hc : c ≠ '_' := collapseUndAux_true_head t hres
          have hnd := ih true
          rw [hres] at hnd
          rw [noDUnd]
          simp [hc, hnd]
    · cases b with
      | true =>
        rw [collapseUndAux_cons_true, if_neg ha]
        rcases hres : collapseUndAux false t with _ | ⟨c, s⟩
        · simp [noDUnd]
        · have hnd := ih false
          rw [hres] at hnd
          rw [noDUnd]
          simp [ha, hnd]
      | false =>
        rw [collapseUndAux_cons_false, if_neg ha]
        rcases hres : collapseUndAux false t with _ | ⟨c, s⟩
        · simp [noDUnd]
        · have hnd := ih false
          rw [hres] at hnd
          rw [noDUnd]
          simp [ha, hnd]

theorem collapseUndAux_eq_self : ∀ (l : List Char), noDUnd l = true →
    collapseUndAux false l = l ∧
      (∀ c t, l = c :: t → c ≠ '_' → collapseUndAux true l = l) := by
  intro l
  induction l with
  | nil => intro _; exact ⟨rfl, fun c t h => by simp at h⟩
  | cons a s ih =>
    intro hnd
    have hs : noDUnd s = true := noDUnd_cons hnd
    constructor
    · by_cases ha : a = '_'
      · subst ha
        rw [collapseUndAux_cons_false, if_pos rfl]
        cases s with
        | nil => rfl
        | cons b t =>
          have hb : b ≠ '_' := by
            rw [noDUnd] at hnd
            have h1 := (Bool.and_eq_true_iff.mp hnd).1
            intro hbeq
            subst hbeq
            simp at h1
          rw [(ih hs).2 b t rfl hb]
      · rw [collapseUndAux_cons_false, if_neg ha, (ih hs).1]
    · intro c t hct hc
      injection hct with h1 h2
      subst h1; subst h2
      rw [collapseUndAux_cons_true, if_neg hc, (ih hs).1]

/-!
## `safe_name` (utils_bip.py)

```python
def safe_name(name: str) -> str:
    name = (name or "").strip()
    name = re.sub(r"[^\w\-.]+", "_", name, flags=re.UNICODE)
    name = re.sub(r"_+", "_", name)
    return name.strip("._") or "unnamed"
```
-/

def safeNameCore (l : List Char) : List Char :=
  stripWhile dotUnd (collapseUnd (replaceRuns (stripWhile Char.isWhitespace l)))

def safe_name (s : String) : String :=
  let r := safeNameCore s.data
  if r = [] then "unnamed" else String.mk r

theorem mem_safeNameCore_keep {l : List Char} {c : Char}
    (h : c ∈ safeNameCore l) : keepChar c = true := by
  unfold safeNameCore collapseUnd replaceRuns at h
  exact mem_replaceRunsAux false _ (mem_collapseUndAux false _ (mem_stripWhile_sub h))

/-- `noDUnd` survives trimming because trimming yields an infix. -/
theorem noDUnd_append_right : ∀ (u v : List Char), noDUnd (u ++ v) = true →
    noDUnd v = true := by
  intro u
  induction u with
  | nil => intro v h; simpa using h
  | cons a s ih => intro v h; exact ih v (noDUnd_cons (by simpa using h))

theorem noDUnd_append_left : ∀ (u v : List Char), noDUnd (u ++ v) = true →
    noDUnd u = true := by
  intro u
  induction u with
  | nil => intro _ _; rfl
  | cons a s ih =>
    intro v h
    cases s with
    | nil => rfl
    | cons b t =>
      rw [noDUnd]
      simp only [List.cons_append] at h
      rw [noDUnd] at h
      have h1 := (Bool.and_eq_true_iff.mp h).1
      have h2 := ih v (Bool.and_eq_true_iff.mp h).2
      simp_all

theorem noDUnd_prefix_closed {u l : List Char} (h : u <+: l) (hl : noDUnd l = true) :
    noDUnd u = true := by
  rcases h with ⟨t, ht⟩
  exact noDUnd_append_left u t (ht ▸ hl)

theorem noDUnd_suffix_closed {u l : List Char} (h : u <:+ l) (hl : noDUnd l = true) :
    noDUnd u = true := by
  rcases h with ⟨t, ht⟩
  exact noDUnd_append_right t u (ht ▸ hl)

theorem noDUnd_stripWhile {p : Char → Bool} {l : List Char} (h : noDUnd l = true) :
    noDUnd (stripWhile p l) = true := by
  have h1 : noDUnd (l.dropWhile p) = true :=
    noDUnd_suffix_closed (List.dropWhile_suffix p) h
  exact noDUnd_prefix_closed (dropTrail_prefix_self p (l.dropWhile p)) h1

theorem noDUnd_safeNameCore (l : List Char) : noDUnd (safeNameCore l) = true := by
  unfold safeNameCore collapseUnd
  exact noDUnd_stripWhile (noDUnd_collapseUndAux false _)

/-- The core pipeline is a fixed point on its own output. -/
theorem safeNameCore_idem (l : List Char) : safeNameCore (safeNameCore l) = safeNameCore l := by
  set r := safeNameCore l with hr
  have hkeep : ∀ c ∈ r, keepChar c = true := fun c hc => mem_safeNameCore_keep hc
  have hnws : ∀ c ∈ r, Char.isWhitespace c = false := fun c hc =>
    keepChar_not_ws (hkeep c hc)
  have hnd : noDUnd r = true := noDUnd_safeNameCore l
  show safeNameCore r = r
  unfold safeNameCore
  rw [stripWhile_eq_self_of_not hnws]
  rw [show replaceRuns r = r from replaceRunsAux_eq_self hkeep false]
  have hcoll : collapseUnd r = r := (collapseUndAux_eq_self r hnd).1
  rw [hcoll]
  have : stripWhile dotUnd r = r := by
    rw [hr]
    unfold safeNameCore
    exact stripWhile_stripWhile dotUnd _
  exact this

theorem safeNameCore_unnamed : safeNameCore ("unnamed".data) = "unnamed".data := by decide

theorem safe_name_of_nil {s : String} (h : safeNameCore s.data = []) :
    safe_name s = "unnamed" := by
  simp [safe_name, h]

theorem safe_name_of_ne_nil {s : String} (h : safeNameCore s.data ≠ []) :
    safe_name s = String.mk (safeNameCore s.data) := by
  simp [safe_name, h]

theorem safe_name_data (s : String) :
    (safe_name s).data = if safeNameCore s.data = [] then "unnamed".data
      else safeNameCore s.data := by
  by_cases h : safeNameCore s.data = []
  · rw [safe_name_of_nil h, if_pos h]
  · rw [safe_name_of_ne_nil h, if_neg h]

/-- Every character of a `safe_name` output is a kept character
(alphanumeric, underscore, hyphen or dot). -/
theorem mem_safe_name_keep {s : String} {c : Char} (h : c ∈ (safe_name s).data) :
    keepChar c = true := by
  rw [safe_name_data] at h
  by_cases hnil : safeNameCore s.data = []
  · rw [if_pos hnil] at h
    have : c ∈ ("unnamed".data : List Char) := h
    fin_cases this <;> decide
  · rw [if_neg hnil] at h
    exact mem_safeNameCore_keep h

theorem safe_name_fixed (s : String) : safe_name (safe_name s) = safe_name s := by
  by_cases hnil : safeNameCore s.data = []
  · rw [safe_name_of_nil hnil]
    have hun : safeNameCore ("unnamed" : String).data ≠ [] := by decide
    rw [safe_name_of_ne_nil hun]
    rw [safeNameCore_unnamed]
  · rw [safe_name_of_ne_nil hnil]
    set r := safeNameCore s.data with hr
    have hdata : (String.mk r).data = r := rfl
    have hcore : safeNameCore (String.mk r).data = r := by
      rw [hdata, hr, safeNameCore_idem]
    have hne : safeNameCore (String.mk r).data ≠ [] := by rw [hcore]; exact hnil
    rw [safe_name_of_ne_nil hne, hcore]

theorem safe_name_ne_empty (s : String) : safe_name s ≠ "" := by
  by_cases hnil : safeNameCore s.data = []
  · rw [safe_name_of_nil hnil]; decide
  · rw [safe_name_of_ne_nil hnil]
    intro h
    have : (String.mk (safeNameCore s.data)).data = ("" : String).data := by rw [h]
    simp at this
    exact hnil this

/-- Claim C5 — `safe_name` is idempotent and never returns the empty string.
It replaces each run of characters outside alphanumerics, underscore, hyphen
and dot with a single underscore, collapses repeated underscores, strips
leading and trailing underscores and dots, and falls back to `"unnamed"`. -/
theorem safe_name_idem_nonempty (s : String) :
    safe_name (safe_name s) = safe_name s ∧ safe_name s ≠ "" :=
  ⟨safe_name_fixed s, safe_name_ne_empty s⟩

/-!
## `safe_path_from_rel` (utils_bip.py)

```python
def safe_path_from_rel(rel_dir: Path) -> Path:
    parts: List[str] = []
    for part in rel_dir.parts:
        if part in (".", ""):
            continue
        parts.append(safe_name(part))
    return Path(*parts) if parts else Path(".")
```

Relative paths are embedded as their component lists (`Path.parts`); the empty
list stands for `Path(".")`, which joins to a root without moving it.
-/

def safe_path_from_rel (parts : List String) : List String :=
  (parts.filter (fun part => !(part = "." || part = ""))).map safe_name

theorem safe_name_head_not_dotUnd {s : String} {a : Char} {t : List Char}
    (h : (safe_name s).data = a :: t) : dotUnd a = false := by
  rw [safe_name_data] at h
  by_cases hnil : safeNameCore s.data = []
  · rw [if_pos hnil] at h
    rw [show ("unnamed".data : List Char) =
      ['u', 'n', 'n', 'a', 'm', 'e', 'd'] from by decide] at h
    injection h with h1 _
    subst h1
    decide
  · rw [if_neg hnil] at h
    exact head_stripWhile_false h

theorem safe_name_ne_dot (s : String) : safe_name s ≠ "." := by
  intro h
  have hd : (safe_name s).data = ['.'] := by rw [h]
  have := safe_name_head_not_dotUnd hd
  simp [dotUnd] at this

theorem safe_name_ne_dotdot (s : String) : safe_name s ≠ ".." := by
  intro h
  have hd : (safe_name s).data = ['.', '.'] := by rw [h]
  have := safe_name_head_not_dotUnd hd
  simp [dotUnd] at this

theorem safe_name_no_slash (s : String) : '/' ∉ (safe_name s).data := by
  intro h
  have := mem_safe_name_keep h
  simp [keepChar, pyWord, Char.isAlphanum, Char.isAlpha, Char.isDigit,
    Char.isUpper, Char.isLower] at this

/-- Claim C9 — every component produced by `safe_path_from_rel` is a sanitized
name: never empty, never `"."` or `".."`, and free of path separators ( `"."`
and empty input parts are dropped, all other parts go through `safe_name`,
which maps `".."` to `"unnamed"`).  Hence joining an output root with the
result keeps the root as a prefix and cannot escape it. -/
theorem safe_path_from_rel_safe (parts : List String) :
    (∀ c ∈ safe_path_from_rel parts,
      c ≠ "" ∧ c ≠ "." ∧ c ≠ ".." ∧ '/' ∉ c.data) ∧
    (∀ root : List String, root <+: root ++ safe_path_from_rel parts) := by
  constructor
  · intro c hc
    rcases List.mem_map.mp hc with ⟨part, _, hpart⟩
    subst hpart
    exact ⟨safe_name_ne_empty part, safe_name_ne_dot part, safe_name_ne_dotdot part,
      safe_name_no_slash part⟩
  · intro root
    exact List.prefix_append root _

/-- Witness for C9: the traversal part `".."` is sanitized to `"unnamed"`,
which is a safe single component. -/
theorem safe_path_from_rel_safe_witness :
    ("unnamed" : String) ≠ "" ∧ ("unnamed" : String) ≠ "." ∧
      ("unnamed" : String) ≠ ".." ∧ '/' ∉ ("unnamed" : String).data :=
  (safe_path_from_rel_safe ["..", "a b"]).1 "unnamed" (by decide)

/-!
## `walk_up_rel_paths` (app.py)

```python
def walk_up_rel_paths(rel_path: Path):
    cur = rel_path
    while True:
        yield cur.as_posix()
        if cur == Path("."):
            break
        cur = cur.parent if cur.parent != cur else Path(".")
```

A relative `Path` is embedded as its component list (`Path.parts`, which for a
relative path contains neither `""` nor `"."` components); `Path(".")` is the
empty list, `Path.parent` is `List.dropLast`, and `as_posix` is `posix` below.
The generator is embedded as the (necessarily finite) list of its yields.
-/

def posix : List String → String
  | [] => "."
  | [x] => x
  | x :: y :: t => x ++ "/" ++ posix (y :: t)

def walk_up_rel_paths (p : List String) : List String :=
  match p with
  | [] => ["."]
  | a :: t => posix (a :: t) :: walk_up_rel_paths (a :: t).dropLast
termination_by p.length
decreasing_by simp [List.length_dropLast]

theorem walk_up_rel_paths_nil : walk_up_rel_paths [] = ["."] := by
  rw [walk_up_rel_paths]

theorem walk_up_rel_paths_cons (a : String) (t : List String) :
    walk_up_rel_paths (a :: t) =
      posix (a :: t) :: walk_up_rel_paths ((a :: t).dropLast) := by
  rw [walk_up_rel_paths]

theorem posix_length_eq (l : List String) (h : l ≠ []) :
    (posix l).length = (l.map String.length).sum + (l.length - 1) := by
  induction l with
  | nil => exact absurd rfl h
  | cons a t ih =>
    cases t with
    | nil => simp [posix]
    | cons b s =>
      have hne : b :: s ≠ [] := by simp
      rw [posix, String.length_append, String.length_append, ih hne]
      have h1 : ("/" : String).length = 1 := rfl
      simp only [List.map_cons, List.sum_cons, List.length_cons, h1]
      omega

theorem length_le_sum_of_ne_empty {r : List String} (h : ∀ x ∈ r, x ≠ "") :
    r.length ≤ (r.map String.length).sum := by
  induction r with
  | nil => simp
  | cons a t ih =>
    have ha : 1 ≤ a.length := by
      have hne := h a (by simp)
      have hd : a.data ≠ [] := by
        intro hd
        apply hne
        cases a with
        | mk d => cases hd; rfl
      have hpos : 0 < a.data.length := List.length_pos.mpr hd
      have hlen : a.length = a.data.length := rfl
      omega
    have ht := ih (fun x hx => h x (List.mem_cons_of_mem a hx))
    simp only [List.map_cons, List.sum_cons, List.length_cons]
    omega

theorem posix_lt_of_append {q r : List String} (hq : q ≠ []) (hr : r ≠ [])
    (hparts : ∀ x ∈ r, x ≠ "") :
    (posix q).length < (posix (q ++ r)).length := by
  rw [posix_length_eq q hq, posix_length_eq (q ++ r) (by simp [hq])]
  rw [List.map_append, List.sum_append, List.length_append]
  have h1 := length_le_sum_of_ne_empty hparts
  have h2 : 0 < r.length := List.length_pos.mpr hr
  have h3 : 0 < q.length := List.length_pos.mpr hq
  omega

theorem posix_ne_take {p : List String} {j : ℕ} (hj : j < p.length)
    (hparts : ∀ x ∈ p, x ≠ "" ∧ x ≠ ".") :
    posix p ≠ posix (p.take j) := by
  have hpne : p ≠ [] := List.ne_nil_of_length_pos (by omega)
  by_cases hj0 : j = 0
  · subst hj0
    rw [List.take_zero]
    cases p with
    | nil => exact absurd rfl hpne
    | cons a t =>
      cases t with
      | nil =>
        show posix [a] ≠ posix []
        rw [posix, posix]
        exact (hparts a (by simp)).2
      | cons b s =>
        intro heq
        have hlen := congrArg String.length heq
        rw [posix_length_eq _ (by simp)] at hlen
        have hsum := length_le_sum_of_ne_empty
          (r := a :: b :: s) (fun x hx => (hparts x hx).1)
        have hone : (posix ([] : List String)).length = 1 := rfl
        simp only [List.length_cons] at hlen hsum
        omega
  · intro heq
    have hsplit : p.take j ++ p.drop j = p := List.take_append_drop j p
    have htne : p.take j ≠ [] := by
      have hlt : (p.take j).length = j := by
        rw [List.length_take]
        omega
      exact List.ne_nil_of_length_pos (by omega)
    have hdne : p.drop j ≠ [] := by
      have hld : (p.drop j).length = p.length - j := List.length_drop j p
      exact List.ne_nil_of_length_pos (by omega)
    have hlt := posix_lt_of_append htne hdne
      (fun x hx => (hparts x ((List.drop_subset j p) hx)).1)
    rw [hsplit] at hlt
    rw [heq] at hlt
    omega

theorem walk_up_rel_paths_eq : ∀ (n : ℕ) (p : List String), p.length = n →
    walk_up_rel_paths p =
      (List.range (n + 1)).map (fun k => posix (p.take (n - k))) := by
  intro n
  induction n with
  | zero =>
    intro p hp
    have hnil : p = [] := List.length_eq_zero.mp hp
    subst hnil
    rw [walk_up_rel_paths_nil]
    rfl
  | succ m ih =>
    intro p hp
    cases p with
    | nil => simp at hp
    | cons a t =>
      rw [walk_up_rel_paths_cons]
      have hdl : (a :: t).dropLast.length = m := by
        rw [List.length_dropLast]
        omega
      conv_rhs => rw [List.range_succ_eq_map]
      rw [ih _ hdl]
      simp only [List.map_cons, List.map_map]
      congr 1
      · rw [Nat.sub_zero, ← hp, List.take_length]
      · apply List.map_congr_left
        intro k hk
        have hkm : k < m + 1 := by
          have := List.mem_range.mp hk
          omega
        simp only [Function.comp]
        have ht : t.length = m := by simpa using hp
        have h1 : (a :: t).dropLast.take (m - k) = (a :: t).take (m - k) := by
          rw [List.dropLast_eq_take, List.take_take]
          congr 1
          simp only [List.length_cons, ht]
          omega
        rw [h1]
        congr 2
        omega

/-- Claim C10 — `walk_up_rel_paths` yields exactly the ancestors of its
argument, from the path itself up to the container root: the yield list has
length `parts + 1`, its `k`-th element is the POSIX form of the path with its
last `k` components removed, its final element is `"."`, and (for genuine
`Path.parts` lists, whose components are neither empty nor `"."`) no ancestor
appears twice.  Totality of the Lean function is the loop-termination claim. -/
theorem walk_up_rel_paths_spec (p : List String) :
    (walk_up_rel_paths p).length = p.length + 1 ∧
    (∀ k, k ≤ p.length →
      (walk_up_rel_paths p)[k]? = some (posix (p.take (p.length - k)))) ∧
    (walk_up_rel_paths p)[p.length]? = some "." ∧
    ((∀ part ∈ p, part ≠ "" ∧ part ≠ ".") → (walk_up_rel_paths p).Nodup) := by
  have heq := walk_up_rel_paths_eq p.length p rfl
  refine ⟨?_, ?_, ?_, ?_⟩
  · rw [heq, List.length_map, List.length_range]
  · intro k hk
    rw [heq, List.getElem?_map, List.getElem?_range (by omega)]
    rfl
  · rw [heq, List.getElem?_map, List.getElem?_range (by omega)]
    simp only [Option.map_some', Nat.sub_self, List.take_zero]
    rfl
  · intro hparts
    rw [heq]
    apply List.Nodup.map_on _ (List.nodup_range _)
    intro x hx y hy hfeq
    have hxr := List.mem_range.mp hx
    have hyr := List.mem_range.mp hy
    by_contra hne
    rcases Nat.lt_or_ge x y with hlt | hge
    · have hsub : (p.take (p.length - x)).take (p.length - y) =
          p.take (p.length - y) := by
        rw [List.take_take]
        congr 1
        omega
      have hlenx : (p.take (p.length - x)).length = p.length - x := by
        rw [List.length_take]
        omega
      have hne2 := posix_ne_take (p := p.take (p.length - x))
        (j := p.length - y) (by omega)
        (fun c hc => hparts c (List.take_subset _ p hc))
      rw [hsub] at hne2
      exact hne2 hfeq
    · have hylt : y < x := by omega
      have hsub : (p.take (p.length - y)).take (p.length - x) =
          p.take (p.length - x) := by
        rw [List.take_take]
        congr 1
        omega
      have hleny : (p.take (p.length - y)).length = p.length - y := by
        rw [List.length_take]
        omega
      have hne2 := posix_ne_take (p := p.take (p.length - y))
        (j := p.length - x) (by omega)
        (fun c hc => hparts c (List.take_subset _ p hc))
      rw [hsub] at hne2
      exact hne2 hfeq.symm

/-- Witness for C10 at the concrete relative path `a/b`. -/
theorem walk_up_rel_paths_spec_witness :
    (walk_up_rel_paths ["a", "b"])[1]? = some (posix (["a", "b"].take 1)) ∧
      (walk_up_rel_paths ["a", "b"]).Nodup :=
  ⟨(walk_up_rel_paths_spec ["a", "b"]).2.1 1 (by decide),
    (walk_up_rel_paths_spec ["a", "b"]).2.2.2 (by decide)⟩

/-!
## Decimal rendering of counters

Python renders the collision counters with f-strings (`f"{base}_{i}"`,
`f"{base}_{i}{suf}"`), i.e. decimal notation.
-/

def digitChar (n : ℕ) : Char := Char.ofNat (48 + n)

/-- Decimal digits of `n`, most significant first.  The structural fuel
argument (`fuel ≥ n` always suffices, a digit count never exceeds its
number) keeps the definition kernel-reducible. -/
def natToDigitsAux : ℕ → ℕ → List Char
  | 0, n => [digitChar n]
  | fuel + 1, n =>
    if n < 10 then [digitChar n]
    else natToDigitsAux fuel (n / 10) ++ [digitChar (n % 10)]

def natToDigits (n : ℕ) : List Char := natToDigitsAux n n

def natRepr (n : ℕ) : String := String.mk (natToDigits n)

def digitVal (c : Char) : ℕ := c.toNat - 48

def parseDigits (l : List Char) : ℕ := l.foldl (fun a c => 10 * a + digitVal c) 0

theorem digitVal_digitChar {d : ℕ} (h : d < 10) : digitVal (digitChar d) = d := by
  interval_cases d <;> decide

theorem parseDigits_snoc (l : List Char) (c : Char) :
    parseDigits (l ++ [c]) = 10 * parseDigits l + digitVal c := by
  unfold parseDigits
  rw [List.foldl_append]
  rfl

theorem parseDigits_natToDigitsAux : ∀ (fuel n : ℕ), n ≤ fuel →
    parseDigits (natToDigitsAux fuel n) = n := by
  intro fuel
  induction fuel with
  | zero =>
    intro n hn
    interval_cases n
    decide
  | succ m ih =>
    intro n hn
    rw [natToDigitsAux]
    by_cases h : n < 10
    · rw [if_pos h]
      show 10 * 0 + digitVal (digitChar n) = n
      rw [digitVal_digitChar h]
      omega
    · rw [if_neg h]
      have hdiv : n / 10 ≤ m := by
        have := Nat.div_lt_self (show 0 < n by omega) (show 1 < 10 by omega)
        omega
      rw [parseDigits_snoc, ih (n / 10) hdiv,
        digitVal_digitChar (Nat.mod_lt _ (by omega))]
      omega

theorem parseDigits_natToDigits (n : ℕ) : parseDigits (natToDigits n) = n :=
  parseDigits_natToDigitsAux n n (le_refl n)

theorem natToDigits_injective : Function.Injective natToDigits := by
  intro a b h
  have h2 := congrArg parseDigits h
  rwa [parseDigits_natToDigits, parseDigits_natToDigits] at h2

theorem natToDigits_ne_nil (n : ℕ) : natToDigits n ≠ [] := by
  rw [natToDigits]
  cases n with
  | zero => simp [natToDigitsAux]
  | succ m =>
    rw [natToDigitsAux]
    by_cases h : m + 1 < 10
    · rw [if_pos h]; simp
    · rw [if_neg h]; simp

theorem natRepr_length_pos (n : ℕ) : 0 < (natRepr n).length := by
  have h := natToDigits_ne_nil n
  have : (natRepr n).length = (natToDigits n).length := rfl
  have := List.length_pos.mpr h
  omega

/-!
## `unique_subdir` (utils_bip.py)

```python
def unique_subdir(parent: Path, name: str) -> Path:
    base = safe_name(name)
    target = parent / base
    i = 1
    while target.exists():
        target = parent / f"{base}_{i}"
        i += 1
    target.mkdir(parents=True, exist_ok=True)
    return target
```

The filesystem is embedded as the list of existing paths; `exists()` is list
membership and `mkdir` appends the new path.  The unbounded `while` is run
with fuel `|fs| + 1`, which `freshLoop_spec` shows is always enough: the
candidate sequence is injective, so some candidate among the first `|fs| + 1`
is not taken.
-/

def freshLoop (fs : List String) (free : ℕ → String) : ℕ → ℕ → ℕ
  | 0, i => i
  | fuel + 1, i => if free i ∈ fs then freshLoop fs free fuel (i + 1) else i

/-- The candidate names tried by `unique_subdir`: `base`, then `base_1`,
`base_2`, ... (paths are rendered `parent/child`). -/
def subdirCandidate (parent base : String) (k : ℕ) : String :=
  if k = 0 then parent ++ "/" ++ base
  else parent ++ "/" ++ base ++ "_" ++ natRepr k

def unique_subdir (fs : List String) (parent name : String) : String × List String :=
  let base := safe_name name
  let free := subdirCandidate parent base
  let target := free (freshLoop fs free (fs.length + 1) 0)
  (target, fs ++ [target])

theorem freshLoop_spec (fs : List String) (free : ℕ → String) :
    ∀ (fuel i : ℕ), (∃ k, k < fuel ∧ free (i + k) ∉ fs) →
      free (freshLoop fs free fuel i) ∉ fs ∧
      i ≤ freshLoop fs free fuel i ∧
      (∀ j, i ≤ j → j < freshLoop fs free fuel i → free j ∈ fs) := by
  intro fuel
  induction fuel with
  | zero =>
    intro i h
    rcases h with ⟨k, hk, _⟩
    omega
  | succ m ih =>
    intro i h
    by_cases hmem : free i ∈ fs
    · have hrec : freshLoop fs free (m + 1) i = freshLoop fs free m (i + 1) := by
        rw [freshLoop, if_pos hmem]
      have hex : ∃ k, k < m ∧ free (i + 1 + k) ∉ fs := by
        rcases h with ⟨k, hk, hfree⟩
        cases k with
        | zero => simp at hfree; exact absurd hmem hfree
        | succ k2 =>
          exact ⟨k2, by omega, by
            have : i + 1 + k2 = i + (k2 + 1) := by omega
            rwa [this]⟩
      rcases ih (i + 1) hex with ⟨h1, h2, h3⟩
      rw [hrec]
      refine ⟨h1, by omega, ?_⟩
      intro j hj1 hj2
      by_cases hji : j = i
      · subst hji; exact hmem
      · exact h3 j (by omega) hj2
    · have hrec : freshLoop fs free (m + 1) i = i := by
        rw [freshLoop, if_neg hmem]
      rw [hrec]
      exact ⟨hmem, le_refl i, fun j hj1 hj2 => absurd hj2 (by omega)⟩

theorem exists_fresh (fs : List String) (free : ℕ → String)
    (hinj : Function.Injective free) : ∃ k, k ≤ fs.length ∧ free k ∉ fs := by
  by_contra h
  push_neg at h
  have hsub : ∀ k ∈ Finset.range (fs.length + 1), free k ∈ fs.toFinset := by
    intro k hk
    rw [List.mem_toFinset]
    exact h k (by have := Finset.mem_range.mp hk; omega)
  have hcard := Finset.card_le_card_of_injOn free hsub hinj.injOn
  rw [Finset.card_range] at hcard
  have := List.toFinset_card_le fs
  omega

theorem subdirCandidate_injective (parent base : String) :
    Function.Injective (subdirCandidate parent base) := by
  intro a b h
  by_cases ha : a = 0 <;> by_cases hb : b = 0
  · omega
  · exfalso
    rw [subdirCandidate, subdirCandidate, if_pos ha, if_neg hb] at h
    have hlen := congrArg String.length h
    simp only [String.length_append] at hlen
    have := natRepr_length_pos b
    have h1 : ("_" : String).length = 1 := rfl
    omega
  · exfalso
    rw [subdirCandidate, subdirCandidate, if_neg ha, if_pos hb] at h
    have hlen := congrArg String.length h
    simp only [String.length_append] at hlen
    have := natRepr_length_pos a
    have h1 : ("_" : String).length = 1 := rfl
    omega
  · rw [subdirCandidate, subdirCandidate, if_neg ha, if_neg hb] at h
    have h2 := congrArg String.data h
    simp only [String.data_append, List.append_assoc] at h2
    have h3 := List.append_cancel_left h2
    have h4 := List.append_cancel_left h3
    have h5 := List.append_cancel_left h4
    have h6 := List.append_cancel_left h5
    have h7 : natToDigits a = natToDigits b := h6
    exact natToDigits_injective h7

/-- Claim C6 — `unique_subdir` never returns a directory that already existed
before the call, the returned directory exists afterwards, and two successive
calls with the same requested name under a parent where neither candidate
exists yet yield the distinct directories `parent/base` and `parent/base_1`,
both existing afterwards. -/
theorem unique_subdir_spec (fs : List String) (parent name : String) :
    ((unique_subdir fs parent name).1 ∉ fs ∧
      (unique_subdir fs parent name).1 ∈ (unique_subdir fs parent name).2) ∧
    (subdirCandidate parent (safe_name name) 0 ∉ fs →
      subdirCandidate parent (safe_name name) 1 ∉ fs →
      (unique_subdir fs parent name).1 = parent ++ "/" ++ safe_name name ∧
      (unique_subdir (unique_subdir fs parent name).2 parent name).1 =
        parent ++ "/" ++ safe_name name ++ "_" ++ natRepr 1 ∧
      (unique_subdir fs parent name).1 ≠
        (unique_subdir (unique_subdir fs parent name).2 parent name).1 ∧
      (unique_subdir fs parent name).1 ∈
        (unique_subdir (unique_subdir fs parent name).2 parent name).2 ∧
      (unique_subdir (unique_subdir fs parent name).2 parent name).1 ∈
        (unique_subdir (unique_subdir fs parent name).2 parent name).2) := by
  have hinj := subdirCandidate_injective parent (safe_name name)
  have hex : ∀ gs : List String,
      ∃ k, k < gs.length + 1 ∧
        subdirCandidate parent (safe_name name) (0 + k) ∉ gs := by
    intro gs
    rcases exists_fresh gs (subdirCandidate parent (safe_name name)) hinj with
      ⟨k, hk, hout⟩
    exact ⟨k, by omega, by simpa using hout⟩
  have spec1 := freshLoop_spec fs (subdirCandidate parent (safe_name name))
    (fs.length + 1) 0 (hex fs)
  have heq1 : unique_subdir fs parent name =
      (subdirCandidate parent (safe_name name)
        (freshLoop fs (subdirCandidate parent (safe_name name)) (fs.length + 1) 0),
       fs ++ [subdirCandidate parent (safe_name name)
        (freshLoop fs (subdirCandidate parent (safe_name name)) (fs.length + 1) 0)]) :=
    rfl
  constructor
  · rw [heq1]
    exact ⟨spec1.1, by simp⟩
  · intro h0 h1
    -- the first call returns candidate 0
    have hk1 : freshLoop fs (subdirCandidate parent (safe_name name))
        (fs.length + 1) 0 = 0 := by
      by_contra hne
      exact h0 (spec1.2.2 0 (by omega) (by omega))
    rw [heq1, hk1]
    have hc0 : subdirCandidate parent (safe_name name) 0 =
        parent ++ "/" ++ safe_name name := by
      rw [subdirCandidate, if_pos rfl]
    have hc1 : subdirCandidate parent (safe_name name) 1 =
        parent ++ "/" ++ safe_name name ++ "_" ++ natRepr 1 := by
      rw [subdirCandidate, if_neg (by omega)]
    -- the second call runs on fs ++ [candidate 0]
    have spec2 := freshLoop_spec
      (fs ++ [subdirCandidate parent (safe_name name) 0])
      (subdirCandidate parent (safe_name name))
      ((fs ++ [subdirCandidate parent (safe_name name) 0]).length + 1) 0
      (hex _)
    have hmem0 : subdirCandidate parent (safe_name name) 0 ∈
        fs ++ [subdirCandidate parent (safe_name name) 0] := by simp
    have hnot1 : subdirCandidate parent (safe_name name) 1 ∉
        fs ++ [subdirCandidate parent (safe_name name) 0] := by
      intro hmem
      rcases List.mem_append.mp hmem with hin | hin
      · exact h1 hin
      · have : subdirCandidate parent (safe_name name) 1 =
            subdirCandidate parent (safe_name name) 0 := by simpa using hin
        have := hinj this
        omega
    have hk2 : freshLoop (fs ++ [subdirCandidate parent (safe_name name) 0])
        (subdirCandidate parent (safe_name name))
        ((fs ++ [subdirCandidate parent (safe_name name) 0]).length + 1) 0 = 1 := by
      rcases spec2 with ⟨s1, s2, s3⟩
      by_contra hne
      rcases Nat.lt_or_ge (freshLoop (fs ++ [subdirCandidate parent (safe_name name) 0])
          (subdirCandidate parent (safe_name name))
          ((fs ++ [subdirCandidate parent (safe_name name) 0]).length + 1) 0) 1 with
        hlt | hge
      · have : freshLoop (fs ++ [subdirCandidate parent (safe_name name) 0])
            (subdirCandidate parent (safe_name name))
            ((fs ++ [subdirCandidate parent (safe_name name) 0]).length + 1) 0 = 0 := by
          omega
        rw [this] at s1
        exact s1 hmem0
      · exact hnot1 (s3 1 (by omega) (by omega))
    have heq2 : unique_subdir
        (fs ++ [subdirCandidate parent (safe_name name) 0]) parent name =
        (subdirCandidate parent (safe_name name)
          (freshLoop (fs ++ [subdirCandidate parent (safe_name name) 0])
            (subdirCandidate parent (safe_name name))
            ((fs ++ [subdirCandidate parent (safe_name name) 0]).length + 1) 0),
         (fs ++ [subdirCandidate parent (safe_name name) 0]) ++
          [subdirCandidate parent (safe_name name)
            (freshLoop (fs ++ [subdirCandidate parent (safe_name name) 0])
              (subdirCandidate parent (safe_name name))
              ((fs ++ [subdirCandidate parent (safe_name name) 0]).length + 1) 0)]) :=
      rfl
    rw [heq2, hk2]
    refine ⟨hc0, hc1, ?_, ?_, ?_⟩
    · intro hcontra
      have h2 : subdirCandidate parent (safe_name name) 0 =
          subdirCandidate parent (safe_name name) 1 := hcontra
      have := hinj h2
      omega
    · simp
    · simp

/-- Witness for C6: on an empty parent, two calls with the requested name
`"m"` create `out/m` and then `out/m_1`. -/
theorem unique_subdir_spec_witness :
    (unique_subdir ([] : List String) "out" "m").1 = "out" ++ "/" ++ safe_name "m" ∧
      (unique_subdir (unique_subdir ([] : List String) "out" "m").2 "out" "m").1 =
        "out" ++ "/" ++ safe_name "m" ++ "_" ++ natRepr 1 ∧
      (unique_subdir ([] : List String) "out" "m").1 ≠
        (unique_subdir (unique_subdir ([] : List String) "out" "m").2 "out" "m").1 ∧
      (unique_subdir ([] : List String) "out" "m").1 ∈
        (unique_subdir (unique_subdir ([] : List String) "out" "m").2 "out" "m").2 ∧
      (unique_subdir (unique_subdir ([] : List String) "out" "m").2 "out" "m").1 ∈
        (unique_subdir (unique_subdir ([] : List String) "out" "m").2 "out" "m").2 :=
  (unique_subdir_spec [] "out" "m").2 (by decide) (by decide)

/-!
## Path and string helpers shared by `app.py`

`strEndsWith`/`strStartsWith` model `str.endswith`/`str.startswith`;
`strToLower` models `str.lower` (restricted, like `Char.toLower`, to basic
Latin letters — the only letters appearing in the extension and filename
literals the sources compare against).  `pathName`, `stemOfName` and
`suffixOfName` model `pathlib.PurePosixPath`'s `name`, `stem` and `suffix`:
the name is the last component after dropping empty and `"."` parts, and the
stem/suffix split at the last dot when it is neither the first nor the last
character of the name.
-/

def strEndsWith (s suf : String) : Bool := decide (suf.data <:+ s.data)

def strStartsWith (s pre : String) : Bool := decide (pre.data <+: s.data)

def strToLower (s : String) : String := String.mk (s.data.map Char.toLower)

/-- Split a character list on a separator character (like `str.split(sep)`:
`"a//b"` gives `["a", "", "b"]`, the empty string gives `[""]`). -/
def splitOnChar (sep : Char) : List Char → List (List Char)
  | [] => [[]]
  | c :: rest =>
    if c = sep then [] :: splitOnChar sep rest
    else
      match splitOnChar sep rest with
      | [] => [[c]]
      | h :: t => (c :: h) :: t

def pathName (s : String) : String :=
  ((((splitOnChar '/' s.data).map String.mk).filter
    (fun part => !(part = "" || part = "."))).getLast?).getD ""

def lastDotIdx (l : List Char) : Option ℕ :=
  match l.reverse.findIdx? (fun c => c = '.') with
  | none => none
  | some j => some (l.length - 1 - j)

def stemOfName (n : String) : String :=
  match lastDotIdx n.data with
  | none => n
  | some i => if 0 < i ∧ i < n.data.length - 1 then String.mk (n.data.take i) else n

def suffixOfName (n : String) : String :=
  match lastDotIdx n.data with
  | none => ""
  | some i => if 0 < i ∧ i < n.data.length - 1 then String.mk (n.data.drop i) else ""

def pathStem (s : String) : String := stemOfName (pathName s)

/-!
## Report definition selection (app.py)

Both `read_report_datamodel_url` and `extract_templates_from_xdoz` pick the
report definition entry from a zip name list the same way:

```python
candidates = [n for n in names if n.lower().endswith("report.xdo")
                               or n.lower().endswith("_report.xdo")]
if not candidates:
    candidates = [n for n in names if n.lower().endswith(".xdo")]
candidates.sort(key=lambda s: (s.count("/"), len(s)))  # prefer root/shorter
... candidates[0]
```

Python's `sort` is stable, so `candidates[0]` is the earliest entry among
those minimizing `(separator count, length)`; `insertSorted` places each new
element after existing key-equal elements, which preserves exactly that.
-/

def sepCount (s : String) : ℕ := s.data.count '/'

def keyLe (a b : String) : Bool :=
  decide (sepCount a < sepCount b ∨ (sepCount a = sepCount b ∧ a.length ≤ b.length))

def insertSorted (a : String) : List String → List String
  | [] => [a]
  | b :: l => if keyLe b a then b :: insertSorted a l else a :: b :: l

def sortByKey (l : List String) : List String :=
  l.foldl (fun acc x => insertSorted x acc) []

def prefXdo (n : String) : Bool :=
  strEndsWith (strToLower n) "report.xdo" || strEndsWith (strToLower n) "_report.xdo"

def anyXdo (n : String) : Bool := strEndsWith (strToLower n) ".xdo"

def xdoCandidates (names : List String) : List String :=
  let cands := names.filter prefXdo
  if cands.isEmpty then names.filter anyXdo else cands

def selectXdo (names : List String) : Option String := (sortByKey (xdoCandidates names)).head?

theorem keyLe_refl (a : String) : keyLe a a = true := by
  simp [keyLe]

theorem keyLe_total (a b : String) (h : keyLe b a = false) : keyLe a b = true := by
  simp only [keyLe, decide_eq_false_iff_not, decide_eq_true_eq] at h ⊢
  omega

theorem keyLe_trans {a b c : String} (h1 : keyLe a b = true) (h2 : keyLe b c = true) :
    keyLe a c = true := by
  simp only [keyLe, decide_eq_true_eq] at h1 h2 ⊢
  omega

theorem mem_insertSorted (x a : String) :
    ∀ l : List String, x ∈ insertSorted a l ↔ x = a ∨ x ∈ l := by
  intro l
  induction l with
  | nil => simp [insertSorted]
  | cons b t ih =>
    rw [insertSorted]
    by_cases hle : keyLe b a
    · rw [if_pos hle]
      rw [List.mem_cons, ih, List.mem_cons]
      tauto
    · rw [if_neg hle]
      simp only [List.mem_cons]

/-- The head of the accumulated sorted list is a key-minimum of its members. -/
def headMin (l : List String) : Prop :=
  ∀ n, l.head? = some n → ∀ m ∈ l, keyLe n m = true

theorem insertSorted_headMin (a : String) (l : List String) (h : headMin l) :
    headMin (insertSorted a l) := by
  cases l with
  | nil =>
    intro n hn m hm
    simp only [insertSorted, List.head?_cons, Option.some_inj] at hn
    simp only [insertSorted, List.mem_singleton] at hm
    rw [← hn, hm]
    exact keyLe_refl a
  | cons b t =>
    intro n hn m hm
    rw [insertSorted] at hn hm
    by_cases hle : keyLe b a
    · rw [if_pos hle] at hn hm
      simp only [List.head?_cons, Option.some_inj] at hn
      rw [← hn]
      rcases List.mem_cons.mp hm with hm1 | hm1
      · rw [hm1]; exact keyLe_refl b
      · rcases (mem_insertSorted m a t).mp hm1 with hm2 | hm2
        · rw [hm2]; exact hle
        · exact h b rfl m (List.mem_cons_of_mem b hm2)
    · rw [if_neg hle] at hn hm
      simp only [List.head?_cons, Option.some_inj] at hn
      rw [← hn]
      have hab : keyLe a b = true := keyLe_total a b (by simpa using hle)
      rcases List.mem_cons.mp hm with hm1 | hm1
      · rw [hm1]; exact keyLe_refl a
      · rcases List.mem_cons.mp hm1 with hm2 | hm2
        · rw [hm2]; exact hab
        · exact keyLe_trans hab (h b rfl m (List.mem_cons_of_mem b hm2))

theorem sortFold_spec :
    ∀ (l acc : List String), headMin acc →
      headMin (l.foldl (fun acc2 x => insertSorted x acc2) acc) ∧
      (∀ x, x ∈ l.foldl (fun acc2 x => insertSorted x acc2) acc ↔ x ∈ l ∨ x ∈ acc) := by
  intro l
  induction l with
  | nil => intro acc h; exact ⟨h, fun x => by simp⟩
  | cons a t ih =>
    intro acc h
    have h2 := ih (insertSorted a acc) (insertSorted_headMin a acc h)
    refine ⟨h2.1, fun x => ?_⟩
    rw [List.foldl_cons]
    rw [h2.2 x, mem_insertSorted]
    simp only [List.mem_cons]
    tauto

theorem sortByKey_headMin (l : List String) : headMin (sortByKey l) :=
  (sortFold_spec l [] (fun n hn => by simp at hn)).1

theorem mem_sortByKey (l : List String) (x : String) : x ∈ sortByKey l ↔ x ∈ l := by
  rw [sortByKey, (sortFold_spec l [] (fun n hn => by simp at hn)).2 x]
  simp

/-- A successful selection is a member of the candidate list that minimizes
`(separator count, length)` over all candidates. -/
theorem selectXdo_spec {names : List String} {n : String}
    (h : selectXdo names = some n) :
    n ∈ xdoCandidates names ∧ ∀ m ∈ xdoCandidates names, keyLe n m = true := by
  rw [selectXdo] at h
  have hmem : n ∈ sortByKey (xdoCandidates names) := by
    rcases hs : sortByKey (xdoCandidates names) with _ | ⟨b, t⟩
    · rw [hs] at h; simp at h
    · rw [hs] at h
      simp only [List.head?_cons, Option.some_inj] at h
      subst h; simp
  constructor
  · exact (mem_sortByKey _ n).mp hmem
  · intro m hm
    exact sortByKey_headMin (xdoCandidates names) n h m ((mem_sortByKey _ m).mpr hm)

theorem prefXdo_anyXdo {n : String} (h : prefXdo n = true) : anyXdo n = true := by
  rw [prefXdo] at h
  rw [anyXdo, strEndsWith, decide_eq_true_eq]
  rcases Bool.or_eq_true_iff.mp h with h1 | h1
  · rw [strEndsWith, decide_eq_true_eq] at h1
    exact List.IsSuffix.trans (by decide : (".xdo" : String).data <:+ ("report.xdo" : String).data) h1
  · rw [strEndsWith, decide_eq_true_eq] at h1
    exact List.IsSuffix.trans (by decide : (".xdo" : String).data <:+ ("_report.xdo" : String).data) h1

theorem xdoCandidates_eq_nil {names : List String}
    (h : ∀ m ∈ names, anyXdo m = false) : xdoCandidates names = [] := by
  rw [xdoCandidates]
  have h1 : names.filter prefXdo = [] := by
    rw [List.filter_eq_nil_iff]
    intro a ha hpa
    have := prefXdo_anyXdo hpa
    rw [h a ha] at this
    cases this
  have h2 : names.filter anyXdo = [] := by
    rw [List.filter_eq_nil_iff]
    intro a ha hpa
    rw [h a ha] at hpa
    cases hpa
  rw [h1, h2]
  simp

theorem mem_xdoCandidates_anyXdo {names : List String} {n : String}
    (h : n ∈ xdoCandidates names) : n ∈ names ∧ anyXdo n = true := by
  rw [xdoCandidates] at h
  by_cases he : (names.filter prefXdo).isEmpty
  · rw [if_pos he] at h
    exact ⟨(List.mem_filter.mp h).1, (List.mem_filter.mp h).2⟩
  · rw [if_neg he] at h
    exact ⟨(List.mem_filter.mp h).1, prefXdo_anyXdo (List.mem_filter.mp h).2⟩

theorem mem_xdoCandidates_pref {names : List String} {n : String}
    (h : n ∈ xdoCandidates names) (hex : ∃ m ∈ names, prefXdo m = true) :
    prefXdo n = true := by
  rw [xdoCandidates] at h
  rcases hex with ⟨m, hm, hpm⟩
  have hne : ¬(names.filter prefXdo).isEmpty = true := by
    rw [List.isEmpty_iff]
    intro hnil
    have := List.filter_eq_nil_iff.mp hnil m hm
    rw [hpm] at this
    exact this rfl
  rw [if_neg hne] at h
  exact (List.mem_filter.mp h).2

theorem sortByKey_nil_iff (l : List String) : sortByKey l = [] ↔ l = [] := by
  constructor
  · intro h
    rcases l with _ | ⟨a, t⟩
    · rfl
    · exfalso
      have : a ∈ sortByKey (a :: t) := (mem_sortByKey _ a).mpr (by simp)
      rw [h] at this
      simp at this
  · intro h; subst h; rfl

/-!
## `read_report_datamodel_url` (app.py)

A report bundle zip is embedded as the list of its entries; each entry
carries its name and the outcome of parsing it as the report definition:
`none` when `etree.fromstring` raises (the surrounding `try` then logs and
returns `None`), otherwise the list of `.//dataModel/@url` attribute values
in document order.  A corrupt zip (`zipfile.ZipFile` raising) is the `none`
archive.
-/

structure XdoEntry where
  name : String
  dmUrls : Option (List String)

def read_report_datamodel_url (z : Option (List XdoEntry)) : Option String :=
  match z with
  | none => none
  | some entries =>
    match selectXdo (entries.map (fun e => e.name)) with
    | none => none
    | some n =>
      match (entries.find? (fun e => e.name == n)).bind (fun e => e.dmUrls) with
      | none => none
      | some urls => urls.head?

/-- Claim C3 — `read_report_datamodel_url` selects the report definition by
preferring entries whose lower-cased name ends in `report.xdo` or
`_report.xdo`, else any entry ending `.xdo`; among candidates it minimizes
(path-separator count, path length); it returns the first `dataModel` `url`
of the selected entry, and returns `none` — never raising — on a corrupt
zip, when no candidate exists, on a parse failure, or when no `dataModel`
`url` is present. -/
theorem read_report_datamodel_url_spec :
    read_report_datamodel_url none = none ∧
    ∀ entries : List XdoEntry,
      ((∀ e ∈ entries, anyXdo e.name = false) →
        read_report_datamodel_url (some entries) = none) ∧
      (selectXdo (entries.map (fun e => e.name)) = none →
        read_report_datamodel_url (some entries) = none) ∧
      (∀ n, selectXdo (entries.map (fun e => e.name)) = some n →
        n ∈ entries.map (fun e => e.name) ∧
        anyXdo n = true ∧
        ((∃ m ∈ entries.map (fun e => e.name), prefXdo m = true) → prefXdo n = true) ∧
        (∀ m ∈ xdoCandidates (entries.map (fun e => e.name)), keyLe n m = true) ∧
        read_report_datamodel_url (some entries) =
          ((entries.find? (fun e => e.name == n)).bind (fun e => e.dmUrls)).bind
            List.head?) := by
  refine ⟨rfl, fun entries => ⟨?_, ?_, ?_⟩⟩
  · intro hall
    have hsel : selectXdo (entries.map (fun e => e.name)) = none := by
      rw [selectXdo, xdoCandidates_eq_nil (by
        intro m hm
        rcases List.mem_map.mp hm with ⟨e, he, hem⟩
        rw [← hem]
        exact hall e he)]
      rfl
    rw [read_report_datamodel_url, hsel]
  · intro hsel
    rw [read_report_datamodel_url, hsel]
  · intro n hsel
    rcases selectXdo_spec hsel with ⟨hmem, hmin⟩
    rcases mem_xdoCandidates_anyXdo hmem with ⟨hnames, hany⟩
    refine ⟨hnames, hany, fun hex => mem_xdoCandidates_pref hmem hex, hmin, ?_⟩
    rw [read_report_datamodel_url, hsel]
    rcases hfind : (entries.find? (fun e => e.name == n)).bind (fun e => e.dmUrls) with
      _ | urls
    · show (match (entries.find? (fun e => e.name == n)).bind (fun e => e.dmUrls) with
          | none => none
          | some urls => urls.head?) =
        ((entries.find? (fun e => e.name == n)).bind (fun e => e.dmUrls)).bind List.head?
      rw [hfind]
      rfl
    · show (match (entries.find? (fun e => e.name == n)).bind (fun e => e.dmUrls) with
          | none => none
          | some urls => urls.head?) =
        ((entries.find? (fun e => e.name == n)).bind (fun e => e.dmUrls)).bind List.head?
      rw [hfind]
      rfl

/-- Witness for C3: the root-level `report.xdo` is preferred to the nested
`a/report.xdo`, and its first `dataModel` url is returned. -/
theorem read_report_datamodel_url_spec_witness :
    ("report.xdo" : String) ∈
      ([⟨"a/report.xdo", some ["m1.xdm"]⟩,
        ⟨"report.xdo", some ["dir/Model2.xdm", "x.xdm"]⟩] : List XdoEntry).map
        (fun e => e.name) ∧
    anyXdo "report.xdo" = true ∧
    ((∃ m ∈ ([⟨"a/report.xdo", some ["m1.xdm"]⟩,
        ⟨"report.xdo", some ["dir/Model2.xdm", "x.xdm"]⟩] : List XdoEntry).map
        (fun e => e.name), prefXdo m = true) → prefXdo "report.xdo" = true) ∧
    (∀ m ∈ xdoCandidates (([⟨"a/report.xdo", some ["m1.xdm"]⟩,
        ⟨"report.xdo", some ["dir/Model2.xdm", "x.xdm"]⟩] : List XdoEntry).map
        (fun e => e.name)), keyLe "report.xdo" m = true) ∧
    read_report_datamodel_url (some
      ([⟨"a/report.xdo", some ["m1.xdm"]⟩,
        ⟨"report.xdo", some ["dir/Model2.xdm", "x.xdm"]⟩] : List XdoEntry)) =
      ((([⟨"a/report.xdo", some ["m1.xdm"]⟩,
        ⟨"report.xdo", some ["dir/Model2.xdm", "x.xdm"]⟩] : List XdoEntry).find?
          (fun e => e.name == "report.xdo")).bind (fun e => e.dmUrls)).bind
        List.head? :=
  (read_report_datamodel_url_spec.2
    [⟨"a/report.xdo", some ["m1.xdm"]⟩,
     ⟨"report.xdo", some ["dir/Model2.xdm", "x.xdm"]⟩]).2.2 "report.xdo" (by decide)

/-!
## The XDRZ report matcher (app.py, pass 2)

The pass-2 loop body of the `.xdrz` branch resolves one report bundle given
the two lookup maps built in pass 1:

```python
dm_url = read_report_datamodel_url(xdoz_file)
target_model_root = None
if dm_url:
    dm_stem = Path(dm_url).stem.lower()
    found = False
    for scope in walk_up_rel_paths(rel_parent):
        key = (scope, dm_stem)
        if key in scoped_map:
            target_model_root = scoped_map[key]
            found = True
            break
    if not found and dm_stem in global_map:
        target_model_root = global_map[dm_stem]
if target_model_root is None:
    target_model_root = ensure_dir(otbi_root / "_Orphan")
```

where `otbi_root = out_root / safe_path_from_rel(rel_parent)`.  The maps are
embedded as lookup functions, the report's container folder as its component
list, and the chosen destination as `MatchTarget` (an `_Orphan` destination
records its position relative to the output root).  Note `if dm_url:` is
false both for `None` and for an empty url string.
-/

inductive MatchTarget where
  | modelRoot (path : String)
  | orphan (relDir : List String)
deriving DecidableEq

def resolveReport (scopedMap : String × String → Option String)
    (globalMap : String → Option String)
    (relParent : List String) (dmUrl : Option String) : MatchTarget :=
  match dmUrl with
  | none => MatchTarget.orphan (safe_path_from_rel relParent ++ ["_Orphan"])
  | some url =>
    if url = "" then MatchTarget.orphan (safe_path_from_rel relParent ++ ["_Orphan"])
    else
      match (walk_up_rel_paths relParent).findSome?
          (fun scope => scopedMap (scope, strToLower (pathStem url))) with
      | some root => MatchTarget.modelRoot root
      | none =>
        match globalMap (strToLower (pathStem url)) with
        | some root => MatchTarget.modelRoot root
        | none => MatchTarget.orphan (safe_path_from_rel relParent ++ ["_Orphan"])

theorem findSome?_first {α β : Type} (f : α → Option β) :
    ∀ (l : List α) (k : ℕ) (a : α) (b : β),
      l[k]? = some a → f a = some b →
      (∀ j, j < k → ∀ x, l[j]? = some x → f x = none) →
      l.findSome? f = some b := by
  intro l
  induction l with
  | nil => intro k a b hk; simp at hk
  | cons c t ih =>
    intro k a b hk hfa hnone
    cases k with
    | zero =>
      simp only [List.getElem?_cons_zero, Option.some_inj] at hk
      subst hk
      rw [List.findSome?_cons, hfa]
    | succ m =>
      have hc : f c = none := hnone 0 (by omega) c (by simp)
      rw [List.findSome?_cons, hc]
      simp only [List.getElem?_cons_succ] at hk
      exact ih m a b hk hfa (fun j hj x hx =>
        hnone (j + 1) (by omega) x (by simpa using hx))

/-- Claim C1 — resolution of one report inside a container: a truthy
data-model reference is resolved by its lower-cased stem, first through the
scoped map along the ancestor chain of the report's own container folder
(nearest scope wins), then through the global map; with no scoped or global
hit, or no reference at all, the report goes to `_Orphan` directly under the
report's own (sanitized) relative container position, never elsewhere. -/
theorem resolveReport_spec (scopedMap : String × String → Option String)
    (globalMap : String → Option String)
    (relParent : List String) (dmUrl : Option String) :
    (dmUrl = none →
      resolveReport scopedMap globalMap relParent dmUrl =
        MatchTarget.orphan (safe_path_from_rel relParent ++ ["_Orphan"])) ∧
    (∀ url, dmUrl = some url → url ≠ "" →
      ((∀ (k : ℕ) (s root : String), (walk_up_rel_paths relParent)[k]? = some s →
          scopedMap (s, strToLower (pathStem url)) = some root →
          (∀ (j : ℕ), j < k → ∀ s2, (walk_up_rel_paths relParent)[j]? = some s2 →
            scopedMap (s2, strToLower (pathStem url)) = none) →
          resolveReport scopedMap globalMap relParent dmUrl =
            MatchTarget.modelRoot root) ∧
        ((∀ s ∈ walk_up_rel_paths relParent,
            scopedMap (s, strToLower (pathStem url)) = none) →
          (∀ root, globalMap (strToLower (pathStem url)) = some root →
            resolveReport scopedMap globalMap relParent dmUrl =
              MatchTarget.modelRoot root) ∧
          (globalMap (strToLower (pathStem url)) = none →
            resolveReport scopedMap globalMap relParent dmUrl =
              MatchTarget.orphan (safe_path_from_rel relParent ++ ["_Orphan"]))))) := by
  constructor
  · intro hnone
    subst hnone
    rfl
  · intro url hurl hne
    subst hurl
    constructor
    · intro k s root hk hs hprev
      have hfs : (walk_up_rel_paths relParent).findSome?
          (fun scope => scopedMap (scope, strToLower (pathStem url))) = some root :=
        findSome?_first _ _ k s root hk hs hprev
      rw [resolveReport, if_neg hne, hfs]
    · intro hall
      have hfs : (walk_up_rel_paths relParent).findSome?
          (fun scope => scopedMap (scope, strToLower (pathStem url))) = none :=
        List.findSome?_eq_none_iff.mpr hall
      constructor
      · intro root hroot
        rw [resolveReport, if_neg hne, hfs, hroot]
      · intro hgnone
        rw [resolveReport, if_neg hne, hfs, hgnone]

/-- Witness for C1: the report in `a/b` referencing `Model1.xdm` resolves to
the model root registered one level up, at scope `a` — the nearest scoped
hit — not to the global entry. -/
theorem resolveReport_spec_witness :
    resolveReport
      (fun key => if key = ("a", "model1") then some "OUT/a/Model1" else none)
      (fun st => if st = "model1" then some "OUT/elsewhere/Model1" else none)
      ["a", "b"] (some "/ws/Model1.xdm") =
      MatchTarget.modelRoot "OUT/a/Model1" :=
  ((resolveReport_spec
      (fun key => if key = ("a", "model1") then some "OUT/a/Model1" else none)
      (fun st => if st = "model1" then some "OUT/elsewhere/Model1" else none)
      ["a", "b"] (some "/ws/Model1.xdm")).2 "/ws/Model1.xdm" rfl (by decide)).1
    1 "a" "OUT/a/Model1"
    (by rw [walk_up_rel_paths_eq 2 ["a", "b"] rfl]; decide)
    (by decide)
    (by
      intro j hj s2 hs2
      interval_cases j
      rw [walk_up_rel_paths_eq 2 ["a", "b"] rfl] at hs2
      have hs2b : s2 = "a/b" := by
        have : (((List.range 3).map
            (fun k => posix (["a", "b"].take (2 - k))))[0]?) = some "a/b" := by decide
        rw [this] at hs2
        exact (Option.some_inj.mp hs2).symm
      rw [hs2b]
      decide)

/-!
## XML documents and `parse_datamodel_xdm` (utils_bip.py)

An XML element carries its local name (element matching in the sources uses
`local-name()` and ignores namespace prefixes), its attributes, its text (the
text before the first child, which is what lxml's `.text` yields) and its
children.

```python
for ds in root.xpath(".//*[local-name()='dataSets']/*[local-name()='dataSet']"):
    ds_name = safe_name(ds.get("name") or "Dataset")
    sql_nodes = ds.xpath("./*[local-name()='sql']")
    sql_texts = [(sn.text or "").strip() for sn in sql_nodes if (sn.text or "").strip()]
    if sql_texts:
        datasets.append((ds_name, "\n\n".join(sql_texts)))
```

`.//*[...='dataSets']/*[...='dataSet']` selects, in document order, every
element named `dataSet` whose parent is an element named `dataSets` other
than the context root; `collectList`/`collectNode` walk the tree in preorder
(= document order) carrying the parent's local name, with `none` standing for
the excluded context root.
-/

inductive Xml where
  | elem (tag : String) (attrs : List (String × String)) (txt : Option String)
      (children : List Xml)

def Xml.tag : Xml → String
  | .elem t _ _ _ => t

def Xml.attrs : Xml → List (String × String)
  | .elem _ a _ _ => a

def Xml.txt : Xml → Option String
  | .elem _ _ x _ => x

def Xml.children : Xml → List Xml
  | .elem _ _ _ c => c

/-- Attribute lookup, like lxml's `element.get(key)`. -/
def Xml.attr (n : Xml) (k : String) : Option String :=
  (n.attrs.find? (fun p => p.1 == k)).map (fun p => p.2)

mutual

def collectNode (container target : String) (pName : Option String) (n : Xml) :
    List Xml :=
  match n with
  | .elem t a x ch =>
    (if pName = some container ∧ t = target then [Xml.elem t a x ch] else []) ++
      collectList container target (some t) ch

def collectList (container target : String) (pName : Option String) :
    List Xml → List Xml
  | [] => []
  | c :: cs =>
    collectNode container target pName c ++ collectList container target pName cs

end

def xpathUnder (container target : String) (root : Xml) : List Xml :=
  collectList container target none root.children

/-- Python truthiness fallback `value or default` for an optional string
(an absent attribute is `None`, an empty attribute is falsy too). -/
def pyOr (o : Option String) (d : String) : String :=
  match o with
  | none => d
  | some s => if s = "" then d else s

/-- Python `str.strip()`. -/
def pyStrip (s : String) : String := String.mk (stripWhile Char.isWhitespace s.data)

/-- Blank-line join, `"\n\n".join(texts)`. -/
def joinBlank : List String → String
  | [] => ""
  | [t] => t
  | t :: u :: rest => t ++ "\n\n" ++ joinBlank (u :: rest)

/-- The trimmed, non-empty texts of an element's direct `sql` children. -/
def dsSqlTexts (ds : Xml) : List String :=
  ((ds.children.filter (fun c => c.tag == "sql")).map
    (fun c => pyStrip (c.txt.getD ""))).filter (fun t => !(t == ""))

def parse_datamodel_xdm (root : Xml) :
    List (String × String) × List (String × String) :=
  ((xpathUnder "dataSets" "dataSet" root).filterMap (fun ds =>
      let nm := safe_name (pyOr (ds.attr "name") "Dataset")
      let ts := dsSqlTexts ds
      if ts = [] then none else some (nm, joinBlank ts)),
   (xpathUnder "valueSets" "valueSet" root).filterMap (fun vs =>
      let nm := safe_name (pyOr (vs.attr "id") "ValueSet")
      let ts := dsSqlTexts vs
      if ts = [] then none else some (nm, joinBlank ts)))

/-- The dataset extraction exactly as claim C4 words it: one pair per
`dataSet` under a `dataSets` container in document order; the name is the
sanitized `name` attribute, defaulting to `"Dataset"` only when the
attribute is ABSENT; a dataset all of whose `sql` children have blank text
is dropped; otherwise the sql is the blank-line join of the trimmed
non-empty `sql` child texts. -/
def specDatasetsClaim (root : Xml) : List (String × String) :=
  (xpathUnder "dataSets" "dataSet" root).filterMap (fun ds =>
    if (ds.children.filter (fun c => c.tag == "sql")).all
        (fun c => pyStrip (c.txt.getD "") == "") then none
    else some (safe_name ((ds.attr "name").getD "Dataset"), joinBlank (dsSqlTexts ds)))

/-- The dataset extraction as amended: the default `"Dataset"` also applies
when the `name` attribute is present but empty (Python's `or` treats the
empty attribute value as falsy). -/
def specDatasetsAmended (root : Xml) : List (String × String) :=
  (xpathUnder "dataSets" "dataSet" root).filterMap (fun ds =>
    if (ds.children.filter (fun c => c.tag == "sql")).all
        (fun c => pyStrip (c.txt.getD "") == "") then none
    else some (safe_name (pyOr (ds.attr "name") "Dataset"), joinBlank (dsSqlTexts ds)))

/-- A data-model file whose dataset has an explicitly empty `name`
attribute. -/
def xdmEmptyName : Xml :=
  .elem "dataModel" [] none
    [.elem "dataSets" [] none
      [.elem "dataSet" [("name", "")] none
        [.elem "sql" [] (some "SELECT 1") []]]]

/-- Counterexample for C4 as stated: with `name=""` present-but-empty, the
code emits the default name `Dataset`, while the claim's wording (default
only when absent) demands the sanitized empty string, `unnamed`.  The file
written would be `Dataset.sql`, not `unnamed.sql`. -/
theorem parse_datamodel_xdm_empty_name_counterexample :
    (parse_datamodel_xdm xdmEmptyName).1 = [("Dataset", "SELECT 1")] ∧
    specDatasetsClaim xdmEmptyName = [("unnamed", "SELECT 1")] ∧
    (parse_datamodel_xdm xdmEmptyName).1 ≠ specDatasetsClaim xdmEmptyName := by
  refine ⟨by decide, by decide, by decide⟩

theorem dsSqlTexts_eq_nil_iff (ds : Xml) :
    dsSqlTexts ds = [] ↔
      (ds.children.filter (fun c => c.tag == "sql")).all
        (fun c => pyStrip (c.txt.getD "") == "") = true := by
  rw [dsSqlTexts, List.filter_eq_nil_iff, List.all_eq_true]
  constructor
  · intro h c hc
    have := h (pyStrip (c.txt.getD "")) (List.mem_map.mpr ⟨c, hc, rfl⟩)
    simpa using this
  · intro h t ht
    rcases List.mem_map.mp ht with ⟨c, hc, hct⟩
    rw [← hct]
    simpa using h c hc

/-!
## `write_sql_otbi` (utils_bip.py)

```python
header = ""
if header_title:
    header = f"-- {header_title}\n"
for name, sql in datasets:
    p = out_dir / f"{name}.sql"
    p.write_text(header + sql.strip() + "\n", encoding="utf-8")
    created.append(p)
for vid, sql in valuesets:
    p = out_dir / f"lv_{vid}.sql"
    p.write_text(header + sql.strip() + "\n", encoding="utf-8")
    created.append(p)
```

The function is embedded as the ordered sequence of `(path, content)` writes
it performs (which is also its `created` return value, first components).
The filesystem is a map from path to content; `write_text` overwrites.
-/

def sqlHeader (header_title : Option String) : String :=
  match header_title with
  | none => ""
  | some t => if t = "" then "" else "-- " ++ t ++ "\n"

def write_sql_otbi (out_dir : String) (datasets valuesets : List (String × String))
    (header_title : Option String) : List (String × String) :=
  datasets.map (fun p =>
    (out_dir ++ "/" ++ p.1 ++ ".sql", sqlHeader header_title ++ pyStrip p.2 ++ "\n")) ++
  valuesets.map (fun p =>
    (out_dir ++ "/lv_" ++ p.1 ++ ".sql", sqlHeader header_title ++ pyStrip p.2 ++ "\n"))

def setFile (fs : String → Option String) (w : String × String) : String → Option String :=
  fun path => if path = w.1 then some w.2 else fs path

def applyWrites (fs : String → Option String) (ws : List (String × String)) :
    String → Option String :=
  ws.foldl setFile fs

theorem applyWrites_lookup (ws : List (String × String)) :
    ∀ (fs : String → Option String) (path : String),
      applyWrites fs ws path =
        match (ws.filter (fun w => w.1 == path)).getLast? with
        | some w => some w.2
        | none => fs path := by
  induction ws with
  | nil => intro fs path; rfl
  | cons w rest ih =>
    intro fs path
    rw [applyWrites, List.foldl_cons, ← applyWrites, ih (setFile fs w) path]
    rw [List.filter_cons]
    by_cases hw : w.1 = path
    · rw [if_pos (by simpa using hw)]
      rcases hrest : rest.filter (fun v => v.1 == path) with _ | ⟨v, vs⟩
      · rw [hrest]
        show setFile fs w path = some w.2
        rw [setFile, if_pos hw.symm]
      · rw [hrest, List.getLast?_cons_cons]
        rcases hgl : (v :: vs).getLast? with _ | u
        · exact absurd hgl (by simp)
        · rfl
    · rw [if_neg (by simpa using hw)]
      rcases hrest : rest.filter (fun v => v.1 == path) with _ | ⟨v, vs⟩
      · rw [hrest]
        show setFile fs w path = fs path
        rw [setFile, if_neg (fun hp => hw hp.symm)]
      · rw [hrest]
        rcases hgl : (v :: vs).getLast? with _ | u
        · exact absurd hgl (by simp)
        · rfl

/-- Claim C7 — one write call emits exactly one `<name>.sql` write per
dataset and one `lv_<id>.sql` write per value-set, all directly under the
supplied root; every written content ends with a newline; and on the
filesystem the last write to a path wins (silent overwrite, no collision
renaming at this layer). -/
theorem write_sql_otbi_spec (out_dir : String)
    (datasets valuesets : List (String × String)) (title : Option String) :
    (∀ p ∈ datasets,
      (out_dir ++ "/" ++ p.1 ++ ".sql", sqlHeader title ++ pyStrip p.2 ++ "\n") ∈
        write_sql_otbi out_dir datasets valuesets title) ∧
    (∀ p ∈ valuesets,
      (out_dir ++ "/lv_" ++ p.1 ++ ".sql", sqlHeader title ++ pyStrip p.2 ++ "\n") ∈
        write_sql_otbi out_dir datasets valuesets title) ∧
    (∀ w ∈ write_sql_otbi out_dir datasets valuesets title,
      (∃ t, w.2 = t ++ "\n") ∧
      ((∃ p ∈ datasets, w.1 = out_dir ++ "/" ++ p.1 ++ ".sql") ∨
       (∃ p ∈ valuesets, w.1 = out_dir ++ "/lv_" ++ p.1 ++ ".sql"))) ∧
    (∀ (fs : String → Option String) (path : String),
      applyWrites fs (write_sql_otbi out_dir datasets valuesets title) path =
        match ((write_sql_otbi out_dir datasets valuesets title).filter
            (fun w => w.1 == path)).getLast? with
        | some w => some w.2
        | none => fs path) := by
  refine ⟨?_, ?_, ?_, ?_⟩
  · intro p hp
    rw [write_sql_otbi]
    exact List.mem_append_left _ (List.mem_map.mpr ⟨p, hp, rfl⟩)
  · intro p hp
    rw [write_sql_otbi]
    exact List.mem_append_right _ (List.mem_map.mpr ⟨p, hp, rfl⟩)
  · intro w hw
    rw [write_sql_otbi] at hw
    rcases List.mem_append.mp hw with hw1 | hw1
    · rcases List.mem_map.mp hw1 with ⟨p, hp, hpw⟩
      rw [← hpw]
      exact ⟨⟨sqlHeader title ++ pyStrip p.2, by rw [String.append_assoc]⟩,
        Or.inl ⟨p, hp, rfl⟩⟩
    · rcases List.mem_map.mp hw1 with ⟨p, hp, hpw⟩
      rw [← hpw]
      exact ⟨⟨sqlHeader title ++ pyStrip p.2, by rw [String.append_assoc]⟩,
        Or.inr ⟨p, hp, rfl⟩⟩
  · intro fs path
    exact applyWrites_lookup _ fs path

/-- Witness for C7: two datasets named `A` in one call; the second one's
content is what ends up in `r/A.sql` (silent overwrite), with a trailing
newline. -/
theorem write_sql_otbi_spec_witness :
    applyWrites (fun _ => none)
      (write_sql_otbi "r" [("A", "s1"), ("A", "s2")] [] none) "r/A.sql" =
      some "s2\n" := by
  rw [(write_sql_otbi_spec "r" [("A", "s1"), ("A", "s2")] [] none).2.2.2
    (fun _ => none) "r/A.sql"]
  decide

/-- Claim C4 (amended) — the dataset extraction emits, in document order, one
`(name, sql)` pair per `dataSet` under a `dataSets` container whose `sql` is
the blank-line join of the trimmed non-empty `sql` child texts, named by the
sanitized `name` attribute with default `"Dataset"` when the attribute is
absent OR EMPTY; datasets with only blank `sql` children are dropped; and
writing the parse result produces exactly one `<name>.sql` path per emitted
dataset (plus the value-set paths). -/
theorem parse_datamodel_xdm_spec (root : Xml) (out_dir : String)
    (title : Option String) :
    (parse_datamodel_xdm root).1 = specDatasetsAmended root ∧
    (write_sql_otbi out_dir (parse_datamodel_xdm root).1
        (parse_datamodel_xdm root).2 title).map Prod.fst =
      (specDatasetsAmended root).map (fun p => out_dir ++ "/" ++ p.1 ++ ".sql") ++
        (parse_datamodel_xdm root).2.map (fun p => out_dir ++ "/lv_" ++ p.1 ++ ".sql") := by
  have h1 : (parse_datamodel_xdm root).1 = specDatasetsAmended root := by
    show (xpathUnder "dataSets" "dataSet" root).filterMap _ = _
    rw [specDatasetsAmended]
    apply List.filterMap_congr
    intro ds _
    by_cases hts : dsSqlTexts ds = []
    · rw [if_pos hts, if_pos ((dsSqlTexts_eq_nil_iff ds).mp hts)]
    · rw [if_neg hts, if_neg (fun hall => hts ((dsSqlTexts_eq_nil_iff ds).mpr hall))]
  refine ⟨h1, ?_⟩
  rw [write_sql_otbi, List.map_append, List.map_map, List.map_map, h1]
  rfl

/-!
## `extract_templates_from_xdoz` (app.py)

Pass 1 copies every non-directory, non-`__MACOSX/` entry whose lower-cased
name ends in a known template extension into `report_templates`, renaming on
collision (`stem_1.suf`, `stem_2.suf`, ...).  Pass 2 parses the report
definition (selected exactly as in `read_report_datamodel_url`) for
`<templates><template url=...>` references, resolves each by exact entry
name, else by case-insensitive basename, and copies the resolved entry the
same way, appending `out` to `created` only if `out not in created`.

The embedding tracks, inside `report_templates` (paths are bare filenames,
the constant directory prefix is dropped): the files present (`existing`,
seeded with the directory's prior content), the function's `created` list,
and every copy performed (`copies`, as `(output name, source entry)` pairs —
one entry per `shutil.copyfileobj` call).  A parse failure in pass 2
(`xdoParse` yielding `none`) aborts the remainder, returning what pass 1
collected, like the surrounding `try/except`.
-/

def templateExts : List String :=
  [".rtf", ".xsl", ".xlsx", ".xls", ".xpt", ".xltx", ".xlsm", ".pptx",
   ".etext", ".html", ".xhtml"]

structure ExtractSt where
  existing : List String
  created : List String
  copies : List (String × String)

/-- The collision-renaming output name: `Path(src).name`, then
`{stem}_{i}{suffix}` for the first `i` making it fresh. -/
def tplFreshName (existing : List String) (srcName : String) : String :=
  let nm := pathName srcName
  let free := fun k =>
    if k = 0 then nm else stemOfName nm ++ "_" ++ natRepr k ++ suffixOfName nm
  free (freshLoop existing free (existing.length + 1) 0)

def pass1Step (st : ExtractSt) (n : String) : ExtractSt :=
  if strEndsWith n "/" || strStartsWith n "__MACOSX/" then st
  else if templateExts.any (fun e => strEndsWith (strToLower n) e) then
    let out := tplFreshName st.existing n
    { existing := st.existing ++ [out], created := st.created ++ [out],
      copies := st.copies ++ [(out, n)] }
  else st

def pass2Step (names : List String) (st : ExtractSt) (ref : String) : ExtractSt :=
  let src := if names.contains ref then some ref
    else names.find? (fun n => strToLower (pathName n) == strToLower (pathName ref))
  match src with
  | none => st
  | some s =>
    let out := tplFreshName st.existing s
    { existing := st.existing ++ [out],
      created := if st.created.contains out then st.created else st.created ++ [out],
      copies := st.copies ++ [(out, s)] }

def extract_templates_from_xdoz (dirFiles : List String) (names : List String)
    (xdoParse : String → Option (List String)) : ExtractSt :=
  let st1 := names.foldl pass1Step
    { existing := dirFiles, created := [], copies := [] }
  match selectXdo names with
  | none => st1
  | some n =>
    match xdoParse n with
    | none => st1
    | some refs => refs.foldl (pass2Step names) st1

/-- Claim C2 evaluated at its failing input — a bundle whose `t.rtf` is
matched both by the extension scan and by an explicit `<template url>`
reference.  The source entry `t.rtf` is copied TWICE (as `t.rtf` in pass 1
and again as `t_1.rtf` in pass 2): the collision-rename loop runs before the
`out not in created` check, so the check never fires and the pass-2 copy is
not skipped. -/
theorem extract_templates_from_xdoz_dual_copy :
    (extract_templates_from_xdoz [] ["t.rtf", "report.xdo"]
        (fun n => if n = "report.xdo" then some ["t.rtf"] else none)).copies =
      [("t.rtf", "t.rtf"), ("t_1.rtf", "t.rtf")] ∧
    (extract_templates_from_xdoz [] ["t.rtf", "report.xdo"]
        (fun n => if n = "report.xdo" then some ["t.rtf"] else none)).created =
      ["t.rtf", "t_1.rtf"] := by
  refine ⟨by decide, by decide⟩

/-!
## `zip_folder` / `extract_ziplike` round-trip (utils_bip.py)

`zip_folder` walks the output tree and stores every file under its path
relative to the folder; `extract_ziplike` unpacks every archive entry under
the destination directory.  Files are embedded as component-list paths with
their byte contents; the archive is the list of (relative path, content)
entries.
-/

def zip_folder (fs : List (List String × List ℕ)) (folder : List String) :
    List (List String × List ℕ) :=
  fs.filterMap (fun e =>
    if folder.isPrefixOf e.1 && decide (folder.length < e.1.length) then
      some (e.1.drop folder.length, e.2)
    else none)

def extract_ziplike (archive : List (List String × List ℕ)) (dest : List String) :
    List (List String × List ℕ) :=
  archive.map (fun e => (dest ++ e.1, e.2))

/-- Claim C8 — zipping a folder and re-extracting the archive yields a
byte-identical file set: a file with content `c` sits at `rel` under the
extraction destination exactly when a file with content `c` sits at `rel`
under the zipped folder (nonempty `rel`, since an archive stores files
strictly below the folder root). -/
theorem zip_roundtrip (fs : List (List String × List ℕ))
    (folder dest : List String) (rel : List String) (content : List ℕ) :
    (dest ++ rel, content) ∈ extract_ziplike (zip_folder fs folder) dest ↔
      (rel ≠ [] ∧ (folder ++ rel, content) ∈ fs) := by
  rw [extract_ziplike]
  constructor
  · intro h
    rcases List.mem_map.mp h with ⟨e, he, hee⟩
    have he1 : e.1 = rel := by
      have hd : dest ++ e.1 = dest ++ rel := congrArg Prod.fst hee
      exact List.append_cancel_left hd
    have he2 : e.2 = content := congrArg Prod.snd hee
    rcases List.mem_filterMap.mp he with ⟨a, ha, hae⟩
    by_cases hcond : folder.isPrefixOf a.1 && decide (folder.length < a.1.length)
    · rw [if_pos hcond] at hae
      have hpre : folder <+: a.1 :=
        List.isPrefixOf_iff_prefix.mp (Bool.and_eq_true_iff.mp hcond).1
      have hlen : folder.length < a.1.length :=
        of_decide_eq_true (Bool.and_eq_true_iff.mp hcond).2
      rcases hpre with ⟨t, ht⟩
      have hdrop : a.1.drop folder.length = t := by rw [← ht, List.drop_left]
      have hae2 : (a.1.drop folder.length, a.2) = e := Option.some_inj.mp hae
      have h1 : t = rel := by
        have hfst : a.1.drop folder.length = e.1 := congrArg Prod.fst hae2
        rw [hdrop] at hfst
        rw [hfst, he1]
      have h2 : a.2 = content := by
        have hsnd : a.2 = e.2 := by rw [← hae2]
        rw [hsnd, he2]
      constructor
      · intro hnil
        rw [h1, hnil, List.append_nil] at ht
        rw [← ht] at hlen
        omega
      · have haeq : a = (folder ++ rel, content) := by
          apply Prod.ext
          · show a.1 = folder ++ rel
            rw [← ht, h1]
          · exact h2
        rw [← haeq]
        exact ha
    · rw [if_neg hcond] at hae
      cases hae
  · rintro ⟨hne, hmem⟩
    apply List.mem_map.mpr
    refine ⟨(rel, content), ?_, rfl⟩
    apply List.mem_filterMap.mpr
    refine ⟨(folder ++ rel, content), hmem, ?_⟩
    have hcond : (folder.isPrefixOf ((folder ++ rel, content) :
          List String × List ℕ).1 &&
        decide (folder.length <
          ((folder ++ rel, content) : List String × List ℕ).1.length)) = true := by
      apply Bool.and_eq_true_iff.mpr
      constructor
      · exact List.isPrefixOf_iff_prefix.mpr (List.prefix_append folder rel)
      · apply decide_eq_true
        simp only [List.length_append]
        have := List.length_pos.mpr hne
        omega
    rw [if_pos hcond]
    simp only [List.drop_left]

/-- Witness for C8 at a one-file tree: `o/a/x.sql` with bytes `[7, 8]`,
zipped at `o` and re-extracted at `d`, reappears as `d/a/x.sql` with the
same bytes. -/
theorem zip_roundtrip_witness :
    ((["d", "a", "x.sql"] : List String), ([7, 8] : List ℕ)) ∈
      extract_ziplike (zip_folder [(["o", "a", "x.sql"], [7, 8])] ["o"]) ["d"] :=
  (zip_roundtrip [(["o", "a", "x.sql"], [7, 8])] ["o"] ["d"] ["a", "x.sql"]
    [7, 8]).mpr ⟨by decide, by decide⟩

end Otbi
